import Mathlib

/-!
Shallow embedding of the xnyss repository: the W-OTS+ engine with
Winternitz parameter w = 256 (package wotsp256, the plain variant cited by
the claims) and the Naor-Yung chain tree (tree.go).

Bytes are modelled as natural numbers and byte strings as lists of
naturals; machine-integer overflow is made explicit with percent 2^w
where it can occur.  SHA-256 is an external collaborator of the
repository (spec section 6); every definition that hashes is therefore
parameterised by a function sha from byte strings to byte strings, whose
real instantiation returns exactly 32 bytes.
-/

/-- Go copy of a byte slice into a fresh 32-byte zero buffer:
the first 32 bytes of the input, zero padded on the right. -/
def copy32 (x : List Nat) : List Nat := (x ++ List.replicate 32 0).take 32

/-- base256 from wotsp256: make([]uint8, outlen) followed by copy(baseW, x). -/
def base256 (x : List Nat) (outlen : Nat) : List Nat := (x ++ List.replicate outlen 0).take outlen

/-- binary.BigEndian.PutUint16. -/
def be16 (v : Nat) : List Nat := [v / 256 % 256, v % 256]

/-- binary.BigEndian.PutUint32. -/
def be32 (v : Nat) : List Nat := [v / 16777216 % 256, v / 65536 % 256, v / 256 % 256, v % 256]

/-- The 32-byte hash address of wotsp256 (address.go). -/
structure Address where
  data : List Nat
deriving DecidableEq

/-- Writes a big-endian uint32 at a byte offset of the address. -/
def setField4 (a : Address) (off v : Nat) : Address :=
  ⟨a.data.take off ++ be32 v ++ a.data.drop (off + 4)⟩

/-- Address.setChain: offset 20. -/
def Address.setChain (a : Address) (c : Nat) : Address := setField4 a 20 c

/-- Address.setHash: offset 24. -/
def Address.setHash (a : Address) (h : Nat) : Address := setField4 a 24 h

/-- Address.setKeyAndMask: offset 28. -/
def Address.setKeyAndMask (a : Address) (km : Nat) : Address := setField4 a 28 km

/-- Address.ToBytes. -/
def Address.toBytes (a : Address) : List Nat := a.data

/-- The all-zero address wotsp256.Address{}. -/
def addrZero : Address := ⟨List.replicate 32 0⟩

/-- padAndHash(in, key, pad) = SHA256(toByte(pad, 32) dd key dd in), where the
padding block is 30 zero bytes followed by pad as big-endian uint16. -/
def padAndHash (sha : List Nat → List Nat) (m key : List Nat) (pad : Nat) : List Nat :=
  sha (List.replicate 30 0 ++ be16 pad ++ key ++ m)

/-- prf(in, key) = padAndHash(in, key, 3). -/
def prf (sha : List Nat → List Nat) (m key : List Nat) : List Nat := padAndHash sha m key 3

/-- hashF(in, key) = padAndHash(in, key, 0). -/
def hashF (sha : List Nat → List Nat) (m key : List Nat) : List Nat := padAndHash sha m key 0

/-- Pointwise xor of the output buffer with the bitmask; the loop runs over
the 32 bytes of the output buffer and the bitmask is a 32-byte SHA-256
output, so the pointwise zip is exact. -/
def xorBytes (a b : List Nat) : List Nat := List.zipWith (fun x y => x ^^^ y) a b

/-- One iteration of the chain loop body at hash index i: set the hash and
keyAndMask fields, derive key and bitmask with prf, xor, then apply hashF. -/
def chainStep (sha : List Nat → List Nat) (adrs : Address) (seed : List Nat) (i : Nat)
    (out : List Nat) : List Nat :=
  let key := prf sha ((adrs.setHash i).setKeyAndMask 0).toBytes seed
  let bitmap := prf sha ((adrs.setHash i).setKeyAndMask 1).toBytes seed
  hashF sha (xorBytes out bitmap) key

/-- The chain loop: k iterations starting at hash index i. -/
def chainIter (sha : List Nat → List Nat) (adrs : Address) (seed : List Nat) :
    Nat → Nat → List Nat → List Nat
  | _, 0, out => out
  | i, k + 1, out => chainIter sha adrs seed (i + 1) k (chainStep sha adrs seed i out)

/-- chain(in, start, steps, adrs, seed): copy in into a 32-byte buffer, then
iterate the loop body for i from start while i is below start + steps, all
arithmetic on start and steps being uint8 (mod 256).  Since i begins below
256 and the uint8 upper bound is below 256, the loop runs exactly
(start + steps) mod 256 - start times (truncated subtraction). -/
def chain (sha : List Nat → List Nat) (x : List Nat) (start steps : Nat) (adrs : Address)
    (seed : List Nat) : List Nat :=
  chainIter sha adrs seed (start % 256) ((start % 256 + steps % 256) % 256 - start % 256)
    (copy32 x)

/-- The 32-byte counter of expandSeed for index i: zeros with a trailing
big-endian uint16. -/
def ctr32 (i : Nat) : List Nat := List.replicate 30 0 ++ be16 i

/-- Block i of the expanded private key: prf(ctr, seed) copied into the
32-byte slot i of the private key buffer. -/
def privKeyBlock (sha : List Nat → List Nat) (seed : List Nat) (i : Nat) : List Nat :=
  copy32 (prf sha (ctr32 i) seed)

/-- GenPublicKey: for each of the l = 34 chains, run the full chain of
w - 1 = 255 steps on the corresponding private key block and concatenate. -/
def GenPublicKey (sha : List Nat → List Nat) (seed pubSeed : List Nat) (adrs : Address) :
    List Nat :=
  ((List.range 34).map (fun i =>
    copy32 (chain sha (privKeyBlock sha seed i) 0 255 (adrs.setChain i) pubSeed))).flatten

/-- checksum(msg): csum is a uint32 accumulating 255 - msg[i] (a uint8
value) over i below l1 = 32, then shifted left by 8 (the source comment
reads 8 - ((l2 * logw) mod 8)), truncated to uint16 by
binary.BigEndian.PutUint16, and emitted as 2 base-256 digits. -/
def checksum (msg : List Nat) : List Nat :=
  let csum := (List.range 32).foldl (fun acc i => (acc + (255 - msg.getD i 0 % 256)) % 4294967296) 0
  let shifted := csum * 256 % 4294967296
  base256 (be16 (shifted % 65536)) 2

/-- The length vector of Sign and PkFromSig: the l1 = 32 base-256 digits of
the message followed by the l2 = 2 checksum digits. -/
def lengthsOf (msg : List Nat) : List Nat :=
  base256 msg 32 ++ checksum (base256 msg 32)

/-- Sign: chain private key block i forward by lengths[i] steps. -/
def Sign (sha : List Nat → List Nat) (msg seed pubSeed : List Nat) (adrs : Address) :
    List Nat :=
  ((List.range 34).map (fun i =>
    copy32 (chain sha (privKeyBlock sha seed i) 0 ((lengthsOf msg).getD i 0)
      (adrs.setChain i) pubSeed))).flatten

/-- PkFromSig: chain signature block i from position lengths[i] by
w - 1 - lengths[i] steps (uint8 arithmetic on the length digit). -/
def PkFromSig (sha : List Nat → List Nat) (sig msg pubSeed : List Nat) (adrs : Address) :
    List Nat :=
  ((List.range 34).map (fun i =>
    copy32 (chain sha (sig.drop (i * 32)) ((lengthsOf msg).getD i 0)
      (255 - (lengthsOf msg).getD i 0 % 256) (adrs.setChain i) pubSeed))).flatten

/-- Verify: byte equality of pk with PkFromSig. -/
def Verify (sha : List Nat → List Nat) (pk sig msg pubSeed : List Nat) (adrs : Address) :
    Bool :=
  pk == PkFromSig sha sig msg pubSeed adrs

/-! ## The Naor-Yung chain tree (tree.go)

The nyNode methods (sign, genPubKey, childNodes, bytes) and loadNode live
in a file that is not part of the repository snapshot; they are modelled
from the spec where marked.  Everything on NYTree itself is translated
from tree.go.  The process-wide configuration variables ConfirmsRequired
and Branches are passed as explicit parameters CR and branches. -/

/-- A chain-tree node: private seed, public seed, txid and confirmation
counter (a uint8). -/
structure NYNode where
  privSeed : List Nat
  pubSeed : List Nat
  txid : List Nat
  confirms : Nat
deriving DecidableEq, Inhabited

/-- The Naor-Yung chain tree. -/
structure NYTree where
  nodes : List NYNode
  rootSeed : List Nat
  rootPubSeed : List Nat
  ots : Bool
deriving DecidableEq

/-- Error values of the tree and signature code. -/
inductive XErr where
  | invalidMsgLen
  | noneAvailable
  | rngFailure
  | backupOneTime
  | backupFailed
  | invalidTreeInput
  | invalidNodeInput
deriving DecidableEq

/-- The signature record returned by tree signing (variant with child
hashes). -/
structure Signature where
  pubSeed : List Nat
  message : List Nat
  childHashes : List (List Nat)
  sigBytes : List Nat
deriving DecidableEq

/-- New(seed, pubSeed, ots): fresh tree whose single root node copies the
seeds, carries a 32-zero-byte txid, and is immediately eligible. -/
def treeNew (CR : Nat) (seed pubSeed : List Nat) (ots : Bool) : NYTree :=
  { nodes := [{ privSeed := copy32 seed, pubSeed := copy32 pubSeed,
                txid := List.replicate 32 0, confirms := CR }],
    rootSeed := copy32 seed, rootPubSeed := copy32 pubSeed, ots := ots }

/-- First index of the list satisfying the predicate: the shape of the
search loops in getSignNode and Backup. -/
def findIdxFrom (p : NYNode → Bool) : List NYNode → Option Nat
  | [] => none
  | nd :: rest => if p nd then some 0 else (findIdxFrom p rest).map (fun k => k + 1)

/-- getSignNode(txid): first node with equal txid; otherwise first node
with enough confirmations; otherwise -1. -/
def getSignNode (CR : Nat) (t : NYTree) (txid : List Nat) : Int :=
  match findIdxFrom (fun nd => nd.txid == txid) t.nodes with
  | some i => (i : Int)
  | none =>
    match findIdxFrom (fun nd => decide (CR ≤ nd.confirms)) t.nodes with
    | some i => (i : Int)
    | none => -1

/-- The counting loop of Available. -/
def availCount (CR : Nat) (txid : List Nat) : List NYNode → Nat
  | [] => 0
  | nd :: rest => (if nd.txid = txid ∨ CR ≤ nd.confirms then 1 else 0) + availCount CR txid rest

/-- Available(txid): nodes whose txid matches (byte equality, with a nil
slice being the empty byte string) or which are confirmed. -/
def Available (CR : Nat) (t : NYTree) (txid : List Nat) : Nat :=
  availCount CR txid t.nodes

/-- Modelled from the spec: nyNode.genPubKey delegates to the W-OTS+
GenPublicKey on the seeds of the node with a zero address (the node
method source file is absent from the snapshot). -/
def genPubKeyNode (sha : List Nat → List Nat) (nd : NYNode) : List Nat :=
  GenPublicKey sha nd.privSeed nd.pubSeed addrZero

/-- Confirm(pkh, confirms): skip nodes that already have enough
confirmations; otherwise set the counter of every node whose hashed
public key equals pkh. -/
def Confirm (sha : List Nat → List Nat) (CR : Nat) (t : NYTree) (pkh : List Nat) (c : Nat) :
    NYTree :=
  { t with nodes := t.nodes.map (fun nd =>
      if CR ≤ nd.confirms then nd
      else if pkh = sha (genPubKeyNode sha nd) then { nd with confirms := c } else nd) }

/-- The child node list drawn from the rng byte stream: child i takes
bytes 64i..64i+31 as private seed and 64i+32..64i+63 as public seed,
inherits the txid and starts unconfirmed. -/
def childList (branches : Nat) (rng txid : List Nat) : List NYNode :=
  (List.range branches).map (fun i =>
    { privSeed := (rng.drop (i * 64)).take 32, pubSeed := (rng.drop (i * 64 + 32)).take 32,
      txid := txid, confirms := 0 })

/-- Modelled from the spec: nyNode.childNodes allocates Branches times 64
bytes from the CSPRNG and fails with RngFailure when the stream runs
short. -/
def childNodesGen (branches : Nat) (rng txid : List Nat) : Except XErr (List NYNode) :=
  if rng.length < branches * 64 then Except.error XErr.rngFailure
  else Except.ok (childList branches rng txid)

/-- Modelled from the spec: nyNode.sign generates the child nodes (none in
OTS mode), hashes each child public key, W-OTS+-signs the digest of the
message concatenated with those hashes, and returns the signature record
together with the children. -/
def nodeSign (sha : List Nat → List Nat) (branches : Nat) (rng : List Nat) (nd : NYNode)
    (msg txid : List Nat) (ots : Bool) : Except XErr (Signature × List NYNode) :=
  if ots then
    Except.ok ({ pubSeed := nd.pubSeed, message := msg, childHashes := [],
                 sigBytes := Sign sha (sha msg) nd.privSeed nd.pubSeed addrZero }, [])
  else
    match childNodesGen branches rng txid with
    | Except.error e => Except.error e
    | Except.ok children =>
      let pkhs := children.map (fun c => sha (genPubKeyNode sha c))
      Except.ok ({ pubSeed := nd.pubSeed, message := msg, childHashes := pkhs,
                   sigBytes := Sign sha (sha (msg ++ pkhs.flatten)) nd.privSeed nd.pubSeed
                     addrZero }, children)

/-- Removal of index i from a node list, keeping the order of the rest:
append(l[:i], l[i+1:]...). -/
def eraseAt (l : List NYNode) (i : Nat) : List NYNode := l.take i ++ l.drop (i + 1)

/-- NYTree.Sign(msg, txid): length check, node selection, node signing,
removal of the used node, and appending of the children in non-OTS mode.
The second component is the tree after the call (unchanged on error). -/
def treeSign (sha : List Nat → List Nat) (CR branches : Nat) (rng : List Nat) (t : NYTree)
    (msg txid : List Nat) : Except XErr Signature × NYTree :=
  if 32 < msg.length then (Except.error XErr.invalidMsgLen, t)
  else
    let idx := getSignNode CR t txid
    if idx < 0 then (Except.error XErr.noneAvailable, t)
    else
      match nodeSign sha branches rng (t.nodes.getD idx.toNat default) msg txid t.ots with
      | Except.error e => (Except.error e, t)
      | Except.ok (sig, children) =>
        (Except.ok sig,
         { t with nodes := eraseAt t.nodes idx.toNat ++ (if t.ots then [] else children) })

/-- 32 zero bytes. -/
def zeros32 : List Nat := List.replicate 32 0

/-- The outer loop of Backup: count times, remove the first confirmed node
of the pool and append it to the backup list; an iteration that finds no
confirmed node moves nothing. -/
def backupMove (CR : Nat) : Nat → List NYNode → List NYNode → List NYNode × List NYNode
  | 0, self, bk => (self, bk)
  | k + 1, self, bk =>
    match findIdxFrom (fun nd => decide (CR ≤ nd.confirms)) self with
    | some i => backupMove CR k (eraseAt self i) (bk ++ [self.getD i default])
    | none => backupMove CR k self bk

/-- NYTree.Backup(count): one-time trees refuse; when count is at least
Available(nil) the zero-seeded empty backup tree is returned together
with the failure error and the original tree is untouched; otherwise the
seeds are copied and count first-confirmed nodes move over.  The triple
is (returned backup tree, returned error, tree after the call). -/
def Backup (CR : Nat) (t : NYTree) (count : Nat) : Option NYTree × Option XErr × NYTree :=
  if t.ots then (none, some XErr.backupOneTime, t)
  else if Available CR t [] ≤ count then
    (some { nodes := [], rootSeed := zeros32, rootPubSeed := zeros32, ots := t.ots },
     some XErr.backupFailed, t)
  else
    let moved := backupMove CR count t.nodes []
    (some { nodes := moved.2, rootSeed := copy32 t.rootSeed,
            rootPubSeed := copy32 t.rootPubSeed, ots := t.ots },
     none, { t with nodes := moved.1 })

/-- Modelled from the spec: the 97-byte node record
privSeed(32) dd pubSeed(32) dd txid(32) dd confirms(1). -/
def nodeBytes (nd : NYNode) : List Nat :=
  nd.privSeed ++ nd.pubSeed ++ nd.txid ++ [nd.confirms % 256]

/-- NYTree.Bytes(): the ots byte, the two root seeds, then the node
records in pool order. -/
def treeBytes (t : NYTree) : List Nat :=
  (if t.ots then [1] else [0]) ++ t.rootSeed ++ t.rootPubSeed ++ (t.nodes.map nodeBytes).flatten

/-- Modelled from the spec: loadNode reads one 97-byte node record and
fails on a short buffer. -/
def loadNode (b : List Nat) : Except XErr NYNode :=
  if b.length < 97 then Except.error XErr.invalidNodeInput
  else Except.ok { privSeed := b.take 32, pubSeed := (b.drop 32).take 32,
                   txid := (b.drop 64).take 32, confirms := b.getD 96 0 }

/-- The parsing loop of Load: records of 97 bytes until the buffer is
exhausted. -/
def loadNodes (b : List Nat) : Except XErr (List NYNode) :=
  if h : b.length = 0 then Except.ok []
  else
    match loadNode b with
    | Except.error e => Except.error e
    | Except.ok nd =>
      match loadNodes (b.drop 97) with
      | Except.error e => Except.error e
      | Except.ok rest => Except.ok (nd :: rest)
termination_by b.length
decreasing_by simp only [List.length_drop]; omega

/-- Load(b): reject a buffer below 65 bytes, read the ots flag and the two
root seeds, then parse node records. -/
def treeLoad (b : List Nat) : Except XErr NYTree :=
  if b.length < 65 then Except.error XErr.invalidTreeInput
  else
    match loadNodes (b.drop 65) with
    | Except.error e => Except.error e
    | Except.ok nds =>
      Except.ok { nodes := nds, rootSeed := (b.drop 1).take 32,
                  rootPubSeed := (b.drop 33).take 32, ots := b.getD 0 0 == 1 }

/-! ## Basic lemmas -/

theorem copy32_length (x : List Nat) : (copy32 x).length = 32 := by
  simp [copy32]

theorem copy32_eq_self (x : List Nat) (hx : x.length = 32) : copy32 x = x := by
  simp [copy32, List.take_append_eq_append_take, hx]

theorem copy32_eq_take (x : List Nat) (hx : 32 ≤ x.length) : copy32 x = x.take 32 := by
  simp [copy32, List.take_append_eq_append_take, Nat.sub_eq_zero_of_le hx]

theorem foldl_addMod (M : Nat) (g : Nat → Nat) :
    ∀ (xs : List Nat) (a : Nat),
      xs.foldl (fun acc i => (acc + g i) % M) (a % M) = (a + (xs.map g).sum) % M := by
  intro xs
  induction xs with
  | nil => intro a; simp
  | cons x xs ih =>
    intro a
    simp only [List.foldl_cons, List.map_cons, List.sum_cons]
    rw [Nat.mod_add_mod, ih (a + g x), Nat.add_assoc]

theorem sum_le_of_all_le (c : Nat) (g : Nat → Nat) :
    ∀ xs : List Nat, (∀ x ∈ xs, g x ≤ c) → (xs.map g).sum ≤ xs.length * c := by
  intro xs
  induction xs with
  | nil => simp
  | cons x xs ih =>
    intro hx
    simp only [List.map_cons, List.sum_cons, List.length_cons, Nat.succ_mul]
    have h1 := hx x (List.mem_cons_self x xs)
    have h2 := ih (fun y hy => hx y (List.mem_cons_of_mem x hy))
    omega

/-! ## Claim C2: the checksum -/

theorem checksum_eq (m : List Nat) :
    checksum m =
      [((List.range 32).map (fun i => 255 - m.getD i 0 % 256)).sum % 256, 0] := by
  have hsum : ((List.range 32).map (fun i => 255 - m.getD i 0 % 256)).sum ≤ 32 * 255 := by
    have h := sum_le_of_all_le 255 (fun i => 255 - m.getD i 0 % 256) (List.range 32)
      (fun x _ => Nat.sub_le _ _)
    simpa using h
  have e1 : (List.range 32).foldl
      (fun acc i => (acc + (255 - m.getD i 0 % 256)) % 4294967296) 0
      = ((List.range 32).map (fun i => 255 - m.getD i 0 % 256)).sum := by
    have h := foldl_addMod 4294967296 (fun i => 255 - m.getD i 0 % 256) (List.range 32) 0
    simp only [Nat.zero_mod, Nat.zero_add] at h
    rw [h, Nat.mod_eq_of_lt (by omega)]
  have e2 : checksum m = base256 (be16
      (((List.range 32).map (fun i => 255 - m.getD i 0 % 256)).sum * 256
        % 4294967296 % 65536)) 2 := by
    simp only [checksum]
    rw [e1]
  have e3 : ∀ a b : Nat, base256 [a, b] 2 = [a, b] := fun a b => rfl
  rw [e2]
  simp only [be16, e3, List.cons.injEq, and_true]
  omega

/-- Claim C2 counterexample: on the all-zero digit vector the checksum
integer is 8160, yet the emitted digits are [224, 0] and not the 2-byte
big-endian encoding [31, 224] of 8160 that the claim asserts, because the
code shifts the checksum left by 8 bits before truncating to 16 bits. -/
theorem checksum_claim_false :
    checksum (List.replicate 32 0) = [224, 0] ∧
      checksum (List.replicate 32 0) ≠ [8160 / 256, 8160 % 256] := by
  constructor
  · decide
  · decide

/-- Claim C2 (amended): with w = 256, l1 = 32, l2 = 2, for every 32-digit
message vector the checksum integer is csum, the sum over i below 32 of
255 - m[i]; the left shift applied to csum is 8 (not 0) and the shifted
value is truncated to a uint16, so the two emitted digits are
[csum mod 256, 0] rather than the big-endian encoding of csum. -/
theorem checksum_amended (m : List Nat) (hm : ∀ d ∈ m, d < 256) (hlen : m.length = 32) :
    checksum m = [((List.range 32).map (fun i => 255 - m.getD i 0)).sum % 256, 0] := by
  rw [checksum_eq]
  have hcongr : ∀ i ∈ List.range 32, 255 - m.getD i 0 % 256 = 255 - m.getD i 0 := by
    intro i hi
    have hi32 : i < m.length := by rw [hlen]; exact List.mem_range.mp hi
    have hd : m.getD i 0 < 256 := by
      rw [List.getD_eq_getElem m 0 hi32]
      exact hm _ (List.getElem_mem hi32)
    rw [Nat.mod_eq_of_lt hd]
  rw [List.map_congr_left hcongr]

/-- Witness for the amended claim C2 at the all-zero digit vector. -/
theorem checksum_amended_witness :
    checksum (List.replicate 32 0) = [224, 0] :=
  (checksum_amended (List.replicate 32 0) (by decide) (by decide)).trans (by decide)

/-! ## Chain lemmas and claim C3 -/

theorem chainIter_add (sha : List Nat → List Nat) (adrs : Address) (seed : List Nat) :
    ∀ (j k i : Nat) (out : List Nat),
      chainIter sha adrs seed i (j + k) out
        = chainIter sha adrs seed (i + j) k (chainIter sha adrs seed i j out) := by
  intro j
  induction j with
  | zero => intro k i out; simp [chainIter]
  | succ j ih =>
    intro k i out
    have hsucc : j + 1 + k = (j + k) + 1 := by omega
    rw [hsucc]
    show chainIter sha adrs seed (i + 1) (j + k) (chainStep sha adrs seed i out) = _
    rw [ih k (i + 1) (chainStep sha adrs seed i out)]
    have hi : i + 1 + j = i + (j + 1) := by omega
    rw [hi]
    rfl

theorem chainIter_length (sha : List Nat → List Nat) (hsha : ∀ y, (sha y).length = 32)
    (adrs : Address) (seed : List Nat) :
    ∀ (k i : Nat) (out : List Nat), out.length = 32 →
      (chainIter sha adrs seed i k out).length = 32 := by
  intro k
  induction k with
  | zero => intro i out hout; exact hout
  | succ k ih =>
    intro i out hout
    exact ih (i + 1) _ (hsha _)

theorem chain_eq_iter (sha : List Nat → List Nat) (x : List Nat) (adrs : Address)
    (seed : List Nat) (start steps : Nat) (h1 : start + steps ≤ 255) :
    chain sha x start steps adrs seed
      = chainIter sha adrs seed start steps (copy32 x) := by
  have e : (start % 256 + steps % 256) % 256 - start % 256 = steps := by omega
  have e2 : start % 256 = start := by omega
  simp only [chain]
  rw [e, e2]

/-- Claim C3: chain composition.  For any split 0 ≤ a ≤ b ≤ 255 and any
32-byte input, chaining a steps from 0 and then b - a steps from a equals
chaining b steps from 0; and for any start s, zero steps return the input
unchanged. -/
theorem chain_composition (sha : List Nat → List Nat) (hsha : ∀ y, (sha y).length = 32)
    (x : List Nat) (hx : x.length = 32) (adrs : Address) (pubSeed : List Nat)
    (a b : Nat) (hab : a ≤ b) (hb : b ≤ 255) :
    chain sha (chain sha x 0 a adrs pubSeed) a (b - a) adrs pubSeed
        = chain sha x 0 b adrs pubSeed
      ∧ ∀ s : Nat, chain sha x s 0 adrs pubSeed = x := by
  constructor
  · rw [chain_eq_iter sha x adrs pubSeed 0 a (by omega),
      chain_eq_iter sha _ adrs pubSeed a (b - a) (by omega),
      chain_eq_iter sha x adrs pubSeed 0 b (by omega)]
    have hlen : (chainIter sha adrs pubSeed 0 a (copy32 x)).length = 32 :=
      chainIter_length sha hsha adrs pubSeed a 0 _ (copy32_length x)
    rw [copy32_eq_self _ hlen]
    have hadd := chainIter_add sha adrs pubSeed a (b - a) 0 (copy32 x)
    rw [Nat.zero_add] at hadd
    rw [← hadd, Nat.add_sub_cancel' hab]
  · intro s
    have hc : (s % 256 + 0 % 256) % 256 - s % 256 = 0 := by omega
    simp only [chain]
    rw [hc]
    exact copy32_eq_self x hx

/-- A concrete stand-in hash with the 32-byte output shape of SHA-256,
used to instantiate the parameterised theorems on concrete inputs. -/
def shaConst : List Nat → List Nat := fun _ => List.replicate 32 0

/-- Witness for claim C3 at a = 1, b = 2 on the zero input. -/
theorem chain_composition_witness :
    chain shaConst (chain shaConst zeros32 0 1 addrZero []) 1 (2 - 1) addrZero []
        = chain shaConst zeros32 0 2 addrZero []
      ∧ ∀ s : Nat, chain shaConst zeros32 s 0 addrZero [] = zeros32 :=
  chain_composition shaConst (fun _ => rfl) zeros32 rfl addrZero [] 1 2 (by decide) (by decide)

/-! ## Claim C1: public-key recovery and verification round-trip -/

theorem flatten_length_const (L : List (List Nat)) (hL : ∀ bl ∈ L, bl.length = 32) :
    L.flatten.length = 32 * L.length := by
  induction L with
  | nil => simp
  | cons b rest ih =>
    simp only [List.flatten_cons, List.length_append, List.length_cons]
    rw [hL b (List.mem_cons_self b rest), ih (fun x hx => hL x (List.mem_cons_of_mem b hx))]
    ring

theorem flatten_drop_take (L : List (List Nat)) (hL : ∀ bl ∈ L, bl.length = 32) :
    ∀ i, i < L.length → (L.flatten.drop (32 * i)).take 32 = L.getD i [] := by
  induction L with
  | nil => intro i hi; simp at hi
  | cons b rest ih =>
    intro i hi
    have hb := hL b (List.mem_cons_self b rest)
    cases i with
    | zero =>
      simp only [Nat.mul_zero, List.drop_zero, List.flatten_cons, List.getD, List.getElem?_cons_zero,
        Option.getD_some]
      exact List.take_left' hb
    | succ j =>
      have hdrop : ((b :: rest).flatten).drop (32 * (j + 1)) = rest.flatten.drop (32 * j) := by
        have h32 : 32 * (j + 1) = 32 + 32 * j := by ring
        rw [List.flatten_cons, h32, ← List.drop_drop, List.drop_left' hb]
      rw [hdrop]
      have hj : j < rest.length := by simpa using hi
      rw [ih (fun x hx => hL x (List.mem_cons_of_mem b hx)) j hj]
      rfl

theorem chain_eq_iter_mod (sha : List Nat → List Nat) (x : List Nat) (adrs : Address)
    (seed : List Nat) (start steps : Nat) (h1 : start % 256 + steps ≤ 255) :
    chain sha x start steps adrs seed
      = chainIter sha adrs seed (start % 256) steps (copy32 x) := by
  have e : (start % 256 + steps % 256) % 256 - start % 256 = steps := by omega
  simp only [chain]
  rw [e]

theorem chain_from_zero (sha : List Nat → List Nat) (x : List Nat) (adrs : Address)
    (seed : List Nat) (steps : Nat) :
    chain sha x 0 steps adrs seed = chainIter sha adrs seed 0 (steps % 256) (copy32 x) := by
  have e : (0 % 256 + steps % 256) % 256 - 0 % 256 = steps % 256 := by omega
  simp only [chain]
  rw [e, Nat.zero_mod]

/-- Claim C1: for every message, seeds and address, recovering the public
key from a signature returns GenPublicKey byte for byte, and hence Verify
accepts; sha ranges over functions with the 32-byte output shape of
SHA-256. -/
theorem wotsp_roundtrip (sha : List Nat → List Nat) (hsha : ∀ y, (sha y).length = 32)
    (msg seed pubSeed : List Nat) (adrs : Address) :
    PkFromSig sha (Sign sha msg seed pubSeed adrs) msg pubSeed adrs
        = GenPublicKey sha seed pubSeed adrs
      ∧ Verify sha (GenPublicKey sha seed pubSeed adrs) (Sign sha msg seed pubSeed adrs)
          msg pubSeed adrs = true := by
  have hblocks : ∀ bl ∈ (List.range 34).map (fun j =>
      copy32 (chain sha (privKeyBlock sha seed j) 0 ((lengthsOf msg).getD j 0)
        (adrs.setChain j) pubSeed)), bl.length = 32 := by
    intro bl hbl
    obtain ⟨j, hj, rfl⟩ := List.mem_map.mp hbl
    exact copy32_length _
  have hsig : Sign sha msg seed pubSeed adrs
      = ((List.range 34).map (fun j =>
          copy32 (chain sha (privKeyBlock sha seed j) 0 ((lengthsOf msg).getD j 0)
            (adrs.setChain j) pubSeed))).flatten := rfl
  have hpk : PkFromSig sha (Sign sha msg seed pubSeed adrs) msg pubSeed adrs
      = GenPublicKey sha seed pubSeed adrs := by
    unfold PkFromSig GenPublicKey
    congr 1
    apply List.map_congr_left
    intro i hi
    have hi34 : i < 34 := List.mem_range.mp hi
    have hflat := flatten_length_const _ hblocks
    have hlen34 : ((List.range 34).map (fun j =>
        copy32 (chain sha (privKeyBlock sha seed j) 0 ((lengthsOf msg).getD j 0)
          (adrs.setChain j) pubSeed))).length = 34 := by simp
    have hA : copy32 ((Sign sha msg seed pubSeed adrs).drop (i * 32))
        = copy32 (chain sha (privKeyBlock sha seed i) 0 ((lengthsOf msg).getD i 0)
            (adrs.setChain i) pubSeed) := by
      rw [hsig]
      rw [copy32_eq_take _ (by
        rw [List.length_drop, hflat, hlen34]
        omega)]
      rw [Nat.mul_comm i 32]
      rw [flatten_drop_take _ hblocks i (by rw [hlen34]; exact hi34)]
      rw [List.getD_eq_getElem _ [] (by rw [hlen34]; exact hi34)]
      rw [List.getElem_map]
      rw [List.getElem_range]
    rw [chain_eq_iter_mod sha _ (adrs.setChain i) pubSeed ((lengthsOf msg).getD i 0)
      (255 - (lengthsOf msg).getD i 0 % 256) (by omega)]
    rw [chain_eq_iter sha _ (adrs.setChain i) pubSeed 0 255 (by omega)]
    rw [hA]
    rw [chain_from_zero sha _ (adrs.setChain i) pubSeed ((lengthsOf msg).getD i 0)]
    have hlen1 : (chainIter sha (adrs.setChain i) pubSeed 0 ((lengthsOf msg).getD i 0 % 256)
        (copy32 (privKeyBlock sha seed i))).length = 32 :=
      chainIter_length sha hsha _ _ _ _ _ (copy32_length _)
    rw [copy32_eq_self _ hlen1]
    have hcomp := chainIter_add sha (adrs.setChain i) pubSeed ((lengthsOf msg).getD i 0 % 256)
      (255 - (lengthsOf msg).getD i 0 % 256) 0 (copy32 (privKeyBlock sha seed i))
    rw [Nat.zero_add] at hcomp
    rw [← hcomp]
    rw [show (lengthsOf msg).getD i 0 % 256 + (255 - (lengthsOf msg).getD i 0 % 256) = 255
      from by omega]
  refine ⟨hpk, ?_⟩
  unfold Verify
  rw [hpk]
  exact beq_self_eq_true _

/-- Witness for claim C1 on concrete empty inputs with the concrete
32-byte-output hash. -/
theorem wotsp_roundtrip_witness :
    PkFromSig shaConst (Sign shaConst [] [] [] addrZero) [] [] addrZero
        = GenPublicKey shaConst [] [] addrZero
      ∧ Verify shaConst (GenPublicKey shaConst [] [] addrZero)
          (Sign shaConst [] [] [] addrZero) [] [] addrZero = true :=
  wotsp_roundtrip shaConst (fun _ => rfl) [] [] [] addrZero

/-! ## First-index lemmas and claim C4 -/

theorem findIdxFrom_eq_some (p : NYNode → Bool) :
    ∀ (l : List NYNode) (i : Nat), i < l.length → p (l.getD i default) = true →
      (∀ nd ∈ l.take i, p nd = false) → findIdxFrom p l = some i := by
  intro l
  induction l with
  | nil => intro i hi _ _; simp at hi
  | cons nd rest ih =>
    intro i hi hp hbefore
    cases i with
    | zero =>
      simp only [List.getD_cons_zero] at hp
      simp [findIdxFrom, hp]
    | succ j =>
      have hnd : p nd = false := by
        apply hbefore
        rw [List.take_succ_cons]
        exact List.mem_cons_self nd _
      have hbefore2 : ∀ x ∈ rest.take j, p x = false := by
        intro x hx
        apply hbefore
        rw [List.take_succ_cons]
        exact List.mem_cons_of_mem nd hx
      have hj : j < rest.length := by simpa using hi
      simp only [List.getD_cons_succ] at hp
      simp [findIdxFrom, hnd, ih j hj hp hbefore2]

theorem findIdxFrom_eq_none_iff (p : NYNode → Bool) :
    ∀ l : List NYNode, findIdxFrom p l = none ↔ ∀ nd ∈ l, p nd = false := by
  intro l
  induction l with
  | nil => simp [findIdxFrom]
  | cons nd rest ih =>
    constructor
    · intro h
      cases hpn : p nd with
      | true => simp [findIdxFrom, hpn] at h
      | false =>
        intro x hx
        rcases List.mem_cons.mp hx with h1 | h2
        · rw [h1]; exact hpn
        · have hrest : findIdxFrom p rest = none := by
            simp only [findIdxFrom, hpn] at h
            cases hfind : findIdxFrom p rest with
            | none => rfl
            | some k => rw [hfind] at h; simp at h
          exact (ih.mp hrest) x h2
    · intro h
      have hnd : p nd = false := h nd (List.mem_cons_self nd rest)
      have hrest := ih.mpr (fun x hx => h x (List.mem_cons_of_mem nd hx))
      simp [findIdxFrom, hnd, hrest]

theorem findIdxFrom_some_spec (p : NYNode → Bool) :
    ∀ (l : List NYNode) (i : Nat), findIdxFrom p l = some i →
      i < l.length ∧ p (l.getD i default) = true := by
  intro l
  induction l with
  | nil => intro i h; simp [findIdxFrom] at h
  | cons nd rest ih =>
    intro i h
    cases hpn : p nd with
    | true =>
      simp [findIdxFrom, hpn] at h
      subst h
      exact ⟨by simp, by simpa using hpn⟩
    | false =>
      simp only [findIdxFrom, hpn] at h
      cases hfind : findIdxFrom p rest with
      | none => rw [hfind] at h; simp at h
      | some k =>
        rw [hfind] at h
        simp at h
        obtain ⟨hk1, hk2⟩ := ih k hfind
        have hik : i = k + 1 := by omega
        subst hik
        refine ⟨by simp; omega, ?_⟩
        rw [List.getD_cons_succ]
        exact hk2

/-- Claim C4: getSignNode returns the first node with matching txid (even
an unconfirmed one); only when no txid matches, the first confirmed node;
and -1 when neither exists. -/
theorem getSignNode_spec (CR : Nat) (t : NYTree) (txid : List Nat) :
    (∀ i, i < t.nodes.length → (t.nodes.getD i default).txid = txid →
       (∀ nd ∈ t.nodes.take i, nd.txid ≠ txid) →
       getSignNode CR t txid = (i : Int))
    ∧ ((∀ nd ∈ t.nodes, nd.txid ≠ txid) →
       ∀ i, i < t.nodes.length → CR ≤ (t.nodes.getD i default).confirms →
         (∀ nd ∈ t.nodes.take i, nd.confirms < CR) →
         getSignNode CR t txid = (i : Int))
    ∧ ((∀ nd ∈ t.nodes, nd.txid ≠ txid ∧ nd.confirms < CR) →
       getSignNode CR t txid = -1) := by
  refine ⟨?_, ?_, ?_⟩
  · intro i hi hit hbefore
    have hfind := findIdxFrom_eq_some (fun nd => nd.txid == txid) t.nodes i hi
      (by simpa using hit)
      (fun nd hnd => by simpa using hbefore nd hnd)
    simp [getSignNode, hfind]
  · intro hnone i hi hconf hbefore
    have hfind1 : findIdxFrom (fun nd => nd.txid == txid) t.nodes = none :=
      (findIdxFrom_eq_none_iff _ _).mpr (fun nd hnd => by simpa using hnone nd hnd)
    have hfind2 := findIdxFrom_eq_some (fun nd => decide (CR ≤ nd.confirms)) t.nodes i hi
      (by simpa using hconf)
      (fun nd hnd => by simpa using Nat.not_le.mpr (hbefore nd hnd))
    simp [getSignNode, hfind1, hfind2]
  · intro hall
    have hfind1 : findIdxFrom (fun nd => nd.txid == txid) t.nodes = none :=
      (findIdxFrom_eq_none_iff _ _).mpr (fun nd hnd => by simpa using (hall nd hnd).1)
    have hfind2 : findIdxFrom (fun nd => decide (CR ≤ nd.confirms)) t.nodes = none :=
      (findIdxFrom_eq_none_iff _ _).mpr
        (fun nd hnd => by simpa using Nat.not_le.mpr (hall nd hnd).2)
    simp [getSignNode, hfind1, hfind2]

/-- A concrete two-node pool: node 0 confirmed with txid [0], node 1
unconfirmed with txid [1]. -/
def c4tree : NYTree :=
  { nodes := [ { privSeed := [], pubSeed := [], txid := [0], confirms := 5 },
               { privSeed := [], pubSeed := [], txid := [1], confirms := 0 } ],
    rootSeed := [], rootPubSeed := [], ots := false }

/-- Witness for claim C4: the unconfirmed txid match at index 1 beats the
confirmed node at index 0; without a txid match the first confirmed node
is chosen; with neither, -1. -/
theorem getSignNode_spec_witness :
    getSignNode 1 c4tree [1] = 1 ∧ getSignNode 1 c4tree [2] = 0
      ∧ getSignNode 9 c4tree [2] = -1 :=
  ⟨(getSignNode_spec 1 c4tree [1]).1 1 (by decide) (by decide) (by decide),
   (getSignNode_spec 1 c4tree [2]).2.1 (by decide) 0 (by decide) (by decide) (by decide),
   (getSignNode_spec 9 c4tree [2]).2.2 (by decide)⟩

/-! ## Claims C6 and C5: the signing flow on the tree -/

theorem getD_mem (l : List NYNode) (i : Nat) (h : i < l.length) : l.getD i default ∈ l := by
  rw [List.getD_eq_getElem _ _ h]
  exact List.getElem_mem h

theorem getSignNode_neg_iff (CR : Nat) (t : NYTree) (txid : List Nat) :
    getSignNode CR t txid < 0 ↔ (∀ nd ∈ t.nodes, nd.txid ≠ txid ∧ nd.confirms < CR) := by
  have h1iff := findIdxFrom_eq_none_iff (fun nd => nd.txid == txid) t.nodes
  have h2iff := findIdxFrom_eq_none_iff (fun nd => decide (CR ≤ nd.confirms)) t.nodes
  unfold getSignNode
  cases hf1 : findIdxFrom (fun nd => nd.txid == txid) t.nodes with
  | some i =>
    show ((i : Nat) : Int) < 0 ↔ _
    constructor
    · intro hi; exfalso; omega
    · intro hall
      exfalso
      obtain ⟨hlt, hp⟩ := findIdxFrom_some_spec _ _ _ hf1
      exact (hall _ (getD_mem t.nodes i hlt)).1 (eq_of_beq hp)
  | none =>
    cases hf2 : findIdxFrom (fun nd => decide (CR ≤ nd.confirms)) t.nodes with
    | some i =>
      show ((i : Nat) : Int) < 0 ↔ _
      constructor
      · intro hi; exfalso; omega
      · intro hall
        exfalso
        obtain ⟨hlt, hp⟩ := findIdxFrom_some_spec _ _ _ hf2
        have h1 := (hall _ (getD_mem t.nodes i hlt)).2
        have h2 := of_decide_eq_true hp
        omega
    | none =>
      show (-1 : Int) < 0 ↔ _
      constructor
      · intro _ nd hnd
        refine ⟨by simpa using (h1iff.mp hf1) nd hnd, ?_⟩
        have h2 := (h2iff.mp hf2) nd hnd
        simp at h2
        omega
      · intro _
        decide

theorem nodeSign_error (sha : List Nat → List Nat) (branches : Nat) (rng : List Nat)
    (nd : NYNode) (msg txid : List Nat) (ots : Bool) (e : XErr)
    (h : nodeSign sha branches rng nd msg txid ots = Except.error e) :
    e = XErr.rngFailure := by
  by_cases hots : ots
  · simp [nodeSign, hots] at h
  · simp only [nodeSign, hots, if_false, Bool.false_eq_true] at h
    by_cases hrng : rng.length < branches * 64
    · simp [childNodesGen, hrng] at h
      exact h.symm
    · simp [childNodesGen, hrng] at h

theorem treeSign_sel (sha : List Nat → List Nat) (CR branches : Nat) (rng : List Nat)
    (t : NYTree) (msg txid : List Nat)
    (hlen : ¬32 < msg.length) (hidx : ¬getSignNode CR t txid < 0) :
    treeSign sha CR branches rng t msg txid =
      match nodeSign sha branches rng (t.nodes.getD (getSignNode CR t txid).toNat default)
          msg txid t.ots with
      | Except.error e => (Except.error e, t)
      | Except.ok (sig, children) =>
        (Except.ok sig,
         { t with nodes := eraseAt t.nodes (getSignNode CR t txid).toNat
             ++ (if t.ots then [] else children) }) := by
  simp only [treeSign]
  rw [if_neg hlen, if_neg hidx]

/-- Claim C6: tree signing fails with the message-length error exactly for
messages longer than 32 bytes, and (once the length check passes) fails
with the no-node error exactly when the pool holds neither a txid match
nor a confirmed node. -/
theorem treeSign_error_conditions (sha : List Nat → List Nat) (CR branches : Nat)
    (rng : List Nat) (t : NYTree) (msg txid : List Nat) :
    ((treeSign sha CR branches rng t msg txid).1 = Except.error XErr.invalidMsgLen
        ↔ 32 < msg.length)
    ∧ ((treeSign sha CR branches rng t msg txid).1 = Except.error XErr.noneAvailable
        ↔ (msg.length ≤ 32 ∧ ∀ nd ∈ t.nodes, nd.txid ≠ txid ∧ nd.confirms < CR)) := by
  by_cases hlen : 32 < msg.length
  · have hres : (treeSign sha CR branches rng t msg txid).1
        = Except.error XErr.invalidMsgLen := by
      simp [treeSign, hlen]
    rw [hres]
    refine ⟨by simp [hlen], ?_⟩
    simp only [Except.error.injEq]
    constructor
    · intro hfalse; exact absurd hfalse (by decide)
    · intro hcon; omega
  · by_cases hidx : getSignNode CR t txid < 0
    · have hres : (treeSign sha CR branches rng t msg txid).1
          = Except.error XErr.noneAvailable := by
        simp [treeSign, hlen, hidx]
      rw [hres]
      constructor
      · simp only [Except.error.injEq]
        constructor
        · intro hfalse; exact absurd hfalse (by decide)
        · intro h32; omega
      · constructor
        · intro _
          exact ⟨by omega, (getSignNode_neg_iff CR t txid).mp hidx⟩
        · intro _
          rfl
    · cases hns : nodeSign sha branches rng
          (t.nodes.getD (getSignNode CR t txid).toNat default) msg txid t.ots with
      | error e =>
        have hres : (treeSign sha CR branches rng t msg txid).1 = Except.error e := by
          rw [treeSign_sel sha CR branches rng t msg txid hlen hidx, hns]
        have he := nodeSign_error sha branches rng _ msg txid t.ots e hns
        rw [hres, he]
        constructor
        · simp only [Except.error.injEq]
          constructor
          · intro hfalse; exact absurd hfalse (by decide)
          · intro h32; omega
        · simp only [Except.error.injEq]
          constructor
          · intro hfalse; exact absurd hfalse (by decide)
          · intro hcon
            exact absurd ((getSignNode_neg_iff CR t txid).mpr hcon.2) hidx
      | ok pr =>
        obtain ⟨sig, children⟩ := pr
        have hres : (treeSign sha CR branches rng t msg txid).1 = Except.ok sig := by
          rw [treeSign_sel sha CR branches rng t msg txid hlen hidx, hns]
        rw [hres]
        constructor
        · constructor
          · intro hfalse; exact absurd hfalse (by simp)
          · intro h32; omega
        · constructor
          · intro hfalse; exact absurd hfalse (by simp)
          · intro hcon
            exact absurd ((getSignNode_neg_iff CR t txid).mpr hcon.2) hidx

theorem getSignNode_toNat_lt (CR : Nat) (t : NYTree) (txid : List Nat)
    (h : ¬getSignNode CR t txid < 0) : (getSignNode CR t txid).toNat < t.nodes.length := by
  unfold getSignNode at h ⊢
  revert h
  cases hf1 : findIdxFrom (fun nd => nd.txid == txid) t.nodes with
  | some j =>
    intro _
    have hj := (findIdxFrom_some_spec _ _ _ hf1).1
    show ((j : Int)).toNat < t.nodes.length
    omega
  | none =>
    cases hf2 : findIdxFrom (fun nd => decide (CR ≤ nd.confirms)) t.nodes with
    | some j =>
      intro _
      have hj := (findIdxFrom_some_spec _ _ _ hf2).1
      show ((j : Int)).toNat < t.nodes.length
      omega
    | none =>
      intro h
      exact absurd (by decide) h

theorem nodeSign_ok_children (sha : List Nat → List Nat) (branches : Nat) (rng : List Nat)
    (nd : NYNode) (msg txid : List Nat) (sg : Signature) (children : List NYNode)
    (h : nodeSign sha branches rng nd msg txid false = Except.ok (sg, children)) :
    children = childList branches rng txid := by
  by_cases hrng : rng.length < branches * 64
  · simp [nodeSign, childNodesGen, hrng] at h
  · simp [nodeSign, childNodesGen, hrng] at h
    exact h.2.symm

/-- Claim C5: a successful tree Sign removes exactly the selected node
(keeping the order of the rest) and, in non-OTS mode, appends the child
nodes at the tail, so the pool shrinks by 1 in OTS mode and grows by
Branches - 1 otherwise; a failing Sign leaves the tree unchanged. -/
theorem treeSign_pool_evolution (sha : List Nat → List Nat) (CR branches : Nat)
    (rng : List Nat) (t : NYTree) (msg txid : List Nat) :
    (∀ sig, (treeSign sha CR branches rng t msg txid).1 = Except.ok sig →
       ∃ i : Nat, getSignNode CR t txid = (i : Int) ∧ i < t.nodes.length ∧
         (treeSign sha CR branches rng t msg txid).2.nodes
           = (t.nodes.take i ++ t.nodes.drop (i + 1))
             ++ (if t.ots then [] else childList branches rng txid) ∧
         (treeSign sha CR branches rng t msg txid).2.nodes.length
           = (if t.ots then t.nodes.length - 1 else t.nodes.length - 1 + branches))
    ∧ (∀ e, (treeSign sha CR branches rng t msg txid).1 = Except.error e →
        (treeSign sha CR branches rng t msg txid).2 = t) := by
  constructor
  · intro sig hok
    by_cases hlen : 32 < msg.length
    · simp [treeSign, hlen] at hok
    by_cases hidx : getSignNode CR t txid < 0
    · simp [treeSign, hlen, hidx] at hok
    have hlt := getSignNode_toNat_lt CR t txid hidx
    refine ⟨(getSignNode CR t txid).toNat, by omega, hlt, ?_⟩
    cases hns : nodeSign sha branches rng
        (t.nodes.getD (getSignNode CR t txid).toNat default) msg txid t.ots with
    | error e =>
      rw [treeSign_sel sha CR branches rng t msg txid hlen hidx, hns] at hok
      exact absurd hok (by simp)
    | ok pr =>
      obtain ⟨sg, children⟩ := pr
      have h2 : (treeSign sha CR branches rng t msg txid).2
          = { t with nodes := eraseAt t.nodes (getSignNode CR t txid).toNat
              ++ (if t.ots then [] else children) } := by
        rw [treeSign_sel sha CR branches rng t msg txid hlen hidx, hns]
      rw [h2]
      have herase : (eraseAt t.nodes (getSignNode CR t txid).toNat).length
          = t.nodes.length - 1 := by
        simp only [eraseAt, List.length_append, List.length_take, List.length_drop]
        omega
      cases hots : t.ots with
      | true =>
        refine ⟨by simp [hots, eraseAt], ?_⟩
        simp only [hots, if_true, List.length_append, List.length_nil, herase]
        omega
      | false =>
        rw [hots] at hns
        have hch : children = childList branches rng txid :=
          nodeSign_ok_children sha branches rng _ msg txid sg children hns
        have hcl : (childList branches rng txid).length = branches := by
          simp [childList]
        refine ⟨by simp [hots, hch, eraseAt], ?_⟩
        simp only [hots, if_false, List.length_append, herase, hch, hcl,
          Bool.false_eq_true]
  · intro e herr
    by_cases hlen : 32 < msg.length
    · simp [treeSign, hlen]
    by_cases hidx : getSignNode CR t txid < 0
    · simp [treeSign, hlen, hidx]
    cases hns : nodeSign sha branches rng
        (t.nodes.getD (getSignNode CR t txid).toNat default) msg txid t.ots with
    | error e2 =>
      rw [treeSign_sel sha CR branches rng t msg txid hlen hidx, hns]
    | ok pr =>
      obtain ⟨sg, children⟩ := pr
      rw [treeSign_sel sha CR branches rng t msg txid hlen hidx, hns] at herr
      exact absurd herr (by simp)

/-- A concrete one-time tree with a single eligible root node. -/
def c5tree : NYTree := treeNew 1 [] [] true

/-- The signature produced by the witness call on c5tree. -/
def c5sig : Signature :=
  { pubSeed := copy32 [], message := [], childHashes := [],
    sigBytes := Sign shaConst (shaConst []) (copy32 []) (copy32 []) addrZero }

/-- Witness for claim C5: a successful OTS signing on the concrete tree,
and an unchanged tree on a failing call with a 33-byte message. -/
theorem treeSign_pool_evolution_witness :
    (∃ i : Nat, getSignNode 1 c5tree [5] = (i : Int) ∧ i < c5tree.nodes.length ∧
       (treeSign shaConst 1 3 [] c5tree [] [5]).2.nodes
         = (c5tree.nodes.take i ++ c5tree.nodes.drop (i + 1))
           ++ (if c5tree.ots then [] else childList 3 [] [5]) ∧
       (treeSign shaConst 1 3 [] c5tree [] [5]).2.nodes.length
         = (if c5tree.ots then c5tree.nodes.length - 1 else c5tree.nodes.length - 1 + 3))
    ∧ (treeSign shaConst 1 3 [] c5tree (List.replicate 33 0) [5]).2 = c5tree :=
  ⟨(treeSign_pool_evolution shaConst 1 3 [] c5tree [] [5]).1 c5sig rfl,
   (treeSign_pool_evolution shaConst 1 3 [] c5tree (List.replicate 33 0) [5]).2
     XErr.invalidMsgLen rfl⟩

/-! ## Claim C7: confirmation -/

/-- Claim C7: Confirm sets the counter to c for exactly the unconfirmed
nodes whose hashed public key equals pkh (all of them when several
match), leaves already-confirmed nodes untouched (no down-setting),
leaves non-matching nodes untouched, and keeps the pool length. -/
theorem confirm_update_rule (sha : List Nat → List Nat) (CR : Nat) (t : NYTree)
    (pkh : List Nat) (c : Nat) :
    (Confirm sha CR t pkh c).nodes.length = t.nodes.length
    ∧ ∀ i, i < t.nodes.length →
        (Confirm sha CR t pkh c).nodes.getD i default
          = (if (t.nodes.getD i default).confirms < CR
                ∧ pkh = sha (genPubKeyNode sha (t.nodes.getD i default))
             then { t.nodes.getD i default with confirms := c }
             else t.nodes.getD i default) := by
  constructor
  · simp [Confirm]
  · intro i hi
    have hstep : (Confirm sha CR t pkh c).nodes.getD i default
        = (if CR ≤ (t.nodes.getD i default).confirms then t.nodes.getD i default
           else if pkh = sha (genPubKeyNode sha (t.nodes.getD i default))
             then { t.nodes.getD i default with confirms := c }
             else t.nodes.getD i default) := by
      show ((t.nodes.map _).getD i default) = _
      rw [List.getD_eq_getElem _ _ (by simpa using hi), List.getD_eq_getElem _ _ hi,
        List.getElem_map]
    rw [hstep]
    by_cases h1 : CR ≤ (t.nodes.getD i default).confirms
    · rw [if_pos h1, if_neg (by omega)]
    · rw [if_neg h1]
      by_cases h2 : pkh = sha (genPubKeyNode sha (t.nodes.getD i default))
      · rw [if_pos h2, if_pos ⟨by omega, h2⟩]
      · rw [if_neg h2, if_neg (by rw [not_and]; intro _; exact h2)]

/-- A concrete two-node pool for the confirmation witness: node 0 already
confirmed, node 1 unconfirmed. -/
def c7tree : NYTree :=
  { nodes := [ { privSeed := [], pubSeed := [], txid := [], confirms := 7 },
               { privSeed := [], pubSeed := [], txid := [], confirms := 0 } ],
    rootSeed := [], rootPubSeed := [], ots := false }

/-- Witness for claim C7 on the concrete pool: the length is kept and the
unconfirmed matching node at index 1 follows the update rule. -/
theorem confirm_update_rule_witness :
    (Confirm shaConst 1 c7tree zeros32 9).nodes.length = c7tree.nodes.length
    ∧ (Confirm shaConst 1 c7tree zeros32 9).nodes.getD 1 default
        = (if (c7tree.nodes.getD 1 default).confirms < 1
              ∧ zeros32 = shaConst (genPubKeyNode shaConst (c7tree.nodes.getD 1 default))
           then { c7tree.nodes.getD 1 default with confirms := 9 }
           else c7tree.nodes.getD 1 default) :=
  ⟨(confirm_update_rule shaConst 1 c7tree zeros32 9).1,
   (confirm_update_rule shaConst 1 c7tree zeros32 9).2 1 (by decide)⟩

/-! ## Availability lemmas and claim C10 -/

theorem availCount_eq_countP (CR : Nat) (txid : List Nat) :
    ∀ l : List NYNode, availCount CR txid l
      = l.countP (fun nd => nd.txid == txid || decide (CR ≤ nd.confirms)) := by
  intro l
  induction l with
  | nil => simp [availCount]
  | cons nd rest ih =>
    simp only [availCount, ih, List.countP_cons]
    by_cases h : nd.txid = txid ∨ CR ≤ nd.confirms
    · rw [if_pos h, if_pos (by
        rcases h with h | h
        · simp [h]
        · simp [h])]
      omega
    · rw [if_neg h, if_neg (by
        simp only [Bool.or_eq_true, beq_iff_eq, decide_eq_true_eq]
        exact h)]
      omega

theorem availNil_eq (CR : Nat) (t : NYTree) (ht : ∀ nd ∈ t.nodes, nd.txid ≠ []) :
    Available CR t [] = t.nodes.countP (fun nd => decide (CR ≤ nd.confirms)) := by
  rw [Available, availCount_eq_countP]
  apply List.countP_congr
  intro nd hnd
  have h := ht nd hnd
  simp [h]

/-- Claim C10: a fresh tree stores a 32-zero-byte txid on its root node;
with 32-byte txids a nil (empty) query txid matches no node, so
Available(nil) counts exactly the confirmed nodes; a query txid of 32
zero bytes does match zero-txid nodes, counting them even when
unconfirmed and selecting the first of them in getSignNode. -/
theorem txid_nil_vs_zero (CR : Nat) (seed pubSeed : List Nat) (ots : Bool) (t : NYTree) :
    (∀ nd ∈ (treeNew CR seed pubSeed ots).nodes, nd.txid = List.replicate 32 0)
    ∧ ((∀ nd ∈ t.nodes, nd.txid.length = 32) →
        Available CR t [] = t.nodes.countP (fun nd => decide (CR ≤ nd.confirms)))
    ∧ Available CR t (List.replicate 32 0)
        = t.nodes.countP (fun nd =>
            nd.txid == List.replicate 32 0 || decide (CR ≤ nd.confirms))
    ∧ (∀ i, i < t.nodes.length → (t.nodes.getD i default).txid = List.replicate 32 0 →
        (∀ nd ∈ t.nodes.take i, nd.txid ≠ List.replicate 32 0) →
        getSignNode CR t (List.replicate 32 0) = (i : Int)) := by
  refine ⟨?_, ?_, ?_, ?_⟩
  · intro nd hnd
    simp only [treeNew, List.mem_singleton] at hnd
    rw [hnd]
  · intro ht
    exact availNil_eq CR t (fun nd hnd => by
      have := ht nd hnd
      intro hcon
      rw [hcon] at this
      simp at this)
  · rw [Available, availCount_eq_countP]
  · intro i hi hit hbefore
    have hfind := findIdxFrom_eq_some (fun nd => nd.txid == List.replicate 32 0) t.nodes i hi
      (by simpa using hit)
      (fun nd hnd => by simpa using hbefore nd hnd)
    unfold getSignNode
    rw [hfind]

/-- A concrete pool holding one unconfirmed node with a 32-zero-byte
txid. -/
def c10tree : NYTree :=
  { nodes := [ { privSeed := [], pubSeed := [], txid := List.replicate 32 0,
                 confirms := 0 } ],
    rootSeed := [], rootPubSeed := [], ots := false }

/-- Witness for claim C10: on the concrete pool a nil txid counts zero
available nodes while the zero txid selects the unconfirmed node. -/
theorem txid_nil_vs_zero_witness :
    (∀ nd ∈ (treeNew 1 [] [] false).nodes, nd.txid = List.replicate 32 0)
    ∧ Available 1 c10tree []
        = c10tree.nodes.countP (fun nd => decide (1 ≤ nd.confirms))
    ∧ getSignNode 1 c10tree (List.replicate 32 0) = ((0 : Nat) : Int) :=
  ⟨(txid_nil_vs_zero 1 [] [] false c10tree).1,
   (txid_nil_vs_zero 1 [] [] false c10tree).2.1 (by decide),
   (txid_nil_vs_zero 1 [] [] false c10tree).2.2.2 0 (by decide) (by decide) (by decide)⟩

/-! ## Claim C8: backup -/

theorem findIdxFrom_of_countP_pos (p : NYNode → Bool) (l : List NYNode)
    (h : 0 < l.countP p) : ∃ i, findIdxFrom p l = some i := by
  cases hf : findIdxFrom p l with
  | some i => exact ⟨i, rfl⟩
  | none =>
    exfalso
    have hall := (findIdxFrom_eq_none_iff p l).mp hf
    have hz : l.countP p = 0 := List.countP_eq_zero.mpr (fun a ha => by simp [hall a ha])
    omega

theorem take_getD_drop (l : List NYNode) (i : Nat) (h : i < l.length) :
    l.take i ++ (l.getD i default) :: l.drop (i + 1) = l := by
  rw [List.getD_eq_getElem _ _ h, ← List.drop_eq_getElem_cons h, List.take_append_drop]

theorem perm_getD_eraseAt (l : List NYNode) (i : Nat) (h : i < l.length) :
    List.Perm l ((l.getD i default) :: eraseAt l i) := by
  conv_lhs => rw [← take_getD_drop l i h]
  exact List.perm_middle

theorem backupMove_spec (CR : Nat) :
    ∀ (k : Nat) (self bk : List NYNode),
      k ≤ self.countP (fun nd => decide (CR ≤ nd.confirms)) →
      ∃ moved, (backupMove CR k self bk).2 = bk ++ moved
        ∧ moved.length = k
        ∧ (∀ nd ∈ moved, CR ≤ nd.confirms)
        ∧ List.Perm self ((backupMove CR k self bk).1 ++ moved) := by
  intro k
  induction k with
  | zero =>
    intro self bk _
    exact ⟨[], by simp [backupMove], rfl, by simp, by simp [backupMove]⟩
  | succ k ih =>
    intro self bk hk
    obtain ⟨i, hf⟩ := findIdxFrom_of_countP_pos (fun nd => decide (CR ≤ nd.confirms)) self
      (by omega)
    obtain ⟨hlt, hp⟩ := findIdxFrom_some_spec _ _ _ hf
    have hstep : backupMove CR (k + 1) self bk
        = backupMove CR k (eraseAt self i) (bk ++ [self.getD i default]) := by
      conv_lhs => rw [backupMove]
      rw [hf]
    have hcperm := (perm_getD_eraseAt self i hlt).countP_eq
      (fun nd => decide (CR ≤ nd.confirms))
    rw [List.countP_cons] at hcperm
    have hconf : CR ≤ (self.getD i default).confirms := of_decide_eq_true hp
    have hcount2 : k ≤ (eraseAt self i).countP (fun nd => decide (CR ≤ nd.confirms)) := by
      rw [if_pos hp] at hcperm
      omega
    obtain ⟨moved2, hm2, hmlen, hmconf, hmperm⟩ := ih (eraseAt self i)
      (bk ++ [self.getD i default]) hcount2
    refine ⟨self.getD i default :: moved2, ?_, by simp [hmlen], ?_, ?_⟩
    · rw [hstep, hm2, List.append_assoc]
      rfl
    · intro nd hnd
      rcases List.mem_cons.mp hnd with h1 | h2
      · rw [h1]; exact hconf
      · exact hmconf nd h2
    · rw [hstep]
      have hperm1 := perm_getD_eraseAt self i hlt
      have hperm2 := hmperm.cons (self.getD i default)
      have hperm3 := hperm1.trans hperm2
      refine hperm3.trans ?_
      exact (List.perm_middle).symm

/-- A concrete tree with nonzero root seeds and one confirmed node, used
to refute the claimed seed sharing of an insufficient backup. -/
def c8tree : NYTree :=
  { nodes := [ { privSeed := [], pubSeed := [], txid := List.replicate 32 0,
                 confirms := 5 } ],
    rootSeed := List.replicate 32 1, rootPubSeed := List.replicate 32 2, ots := false }

/-- Claim C8 counterexample: when count is at least Available(nil) the
returned backup tree carries 32 zero bytes in both seed fields, because
the seed copy happens after the early return; it does not share the root
seeds of the original tree as claimed. -/
theorem backup_claim_false :
    (Backup 1 c8tree 5).2.1 = some XErr.backupFailed
    ∧ (Backup 1 c8tree 5).1
        = some { nodes := [], rootSeed := zeros32, rootPubSeed := zeros32, ots := false }
    ∧ zeros32 ≠ c8tree.rootSeed := by
  refine ⟨by decide, by decide, by decide⟩

/-- Claim C8 (amended): Backup fails with the one-time error on an OTS
tree; when count is at least Available(nil) it returns the failure error
together with a fresh empty-pool backup tree whose seed fields are 32
zero bytes (not the root seeds), moving no nodes; otherwise it succeeds,
copies the root seeds, and moves exactly count confirmed nodes
(rescanning from the pool start each time) out of the original tree. -/
theorem backup_behavior (CR : Nat) (t : NYTree) (count : Nat)
    (ht : ∀ nd ∈ t.nodes, nd.txid ≠ []) :
    (t.ots = true → Backup CR t count = (none, some XErr.backupOneTime, t))
    ∧ (t.ots = false → Available CR t [] ≤ count →
        Backup CR t count
          = (some { nodes := [], rootSeed := zeros32, rootPubSeed := zeros32, ots := false },
             some XErr.backupFailed, t))
    ∧ (t.ots = false → count < Available CR t [] →
        ∃ bk t2, Backup CR t count = (some bk, none, t2)
          ∧ bk.ots = false
          ∧ bk.rootSeed = copy32 t.rootSeed
          ∧ bk.rootPubSeed = copy32 t.rootPubSeed
          ∧ bk.nodes.length = count
          ∧ (∀ nd ∈ bk.nodes, CR ≤ nd.confirms)
          ∧ List.Perm t.nodes (t2.nodes ++ bk.nodes)
          ∧ t2.nodes.length = t.nodes.length - count) := by
  refine ⟨?_, ?_, ?_⟩
  · intro hots
    simp [Backup, hots]
  · intro hots hle
    simp [Backup, hots, hle]
  · intro hots hcount
    have hav := availNil_eq CR t ht
    have hcp : count < t.nodes.countP (fun nd => decide (CR ≤ nd.confirms)) := by
      omega
    obtain ⟨moved, hm2, hmlen, hmconf, hmperm⟩ :=
      backupMove_spec CR count t.nodes [] (by omega)
    have hres : Backup CR t count
        = (some ({ nodes := (backupMove CR count t.nodes []).2,
                   rootSeed := copy32 t.rootSeed,
                   rootPubSeed := copy32 t.rootPubSeed,
                   ots := t.ots } : NYTree),
           none, { t with nodes := (backupMove CR count t.nodes []).1 }) := by
      have hnle : ¬Available CR t [] ≤ count := by omega
      simp [Backup, hots, hnle]
    refine ⟨_, _, hres, by simp [hots], rfl, rfl, ?_, ?_, ?_, ?_⟩
    · simp only [hm2, List.nil_append, hmlen]
    · intro nd hnd
      simp only [hm2, List.nil_append] at hnd
      exact hmconf nd hnd
    · simp only [hm2, List.nil_append]
      exact hmperm
    · have hlen := hmperm.length_eq
      rw [List.length_append] at hlen
      simp only []
      omega

/-- A concrete non-OTS tree with two confirmed nodes and one unconfirmed
node for the successful backup witness. -/
def c8btree : NYTree :=
  { nodes := [ { privSeed := [], pubSeed := [], txid := List.replicate 32 0,
                 confirms := 0 },
               { privSeed := [1], pubSeed := [], txid := List.replicate 32 0,
                 confirms := 3 },
               { privSeed := [2], pubSeed := [], txid := List.replicate 32 0,
                 confirms := 4 } ],
    rootSeed := List.replicate 32 1, rootPubSeed := List.replicate 32 2, ots := false }

/-- Witness for the amended claim C8: the one-time refusal, the
insufficient case with the zero-seeded empty backup, and a successful
move of one confirmed node. -/
theorem backup_behavior_witness :
    Backup 1 (treeNew 1 [] [] true) 0
        = (none, some XErr.backupOneTime, treeNew 1 [] [] true)
    ∧ Backup 1 c8tree 5
        = (some { nodes := [], rootSeed := zeros32, rootPubSeed := zeros32, ots := false },
           some XErr.backupFailed, c8tree)
    ∧ (∃ bk t2, Backup 1 c8btree 1 = (some bk, none, t2)
        ∧ bk.ots = false
        ∧ bk.rootSeed = copy32 c8btree.rootSeed
        ∧ bk.rootPubSeed = copy32 c8btree.rootPubSeed
        ∧ bk.nodes.length = 1
        ∧ (∀ nd ∈ bk.nodes, 1 ≤ nd.confirms)
        ∧ List.Perm c8btree.nodes (t2.nodes ++ bk.nodes)
        ∧ t2.nodes.length = c8btree.nodes.length - 1) :=
  ⟨(backup_behavior 1 (treeNew 1 [] [] true) 0 (by decide)).1 rfl,
   (backup_behavior 1 c8tree 5 (by decide)).2.1 rfl (by decide),
   (backup_behavior 1 c8btree 1 (by decide)).2.2 rfl (by decide)⟩

/-! ## Claim C9: serialization round-trip -/

/-- Well-formedness of a tree as maintained by the API: 32-byte seeds and
txids and uint8 confirmation counters. -/
def wfTree (t : NYTree) : Prop :=
  t.rootSeed.length = 32 ∧ t.rootPubSeed.length = 32 ∧
    ∀ nd ∈ t.nodes, nd.privSeed.length = 32 ∧ nd.pubSeed.length = 32
      ∧ nd.txid.length = 32 ∧ nd.confirms < 256

theorem nodeBytes_length (nd : NYNode) (h1 : nd.privSeed.length = 32)
    (h2 : nd.pubSeed.length = 32) (h3 : nd.txid.length = 32) :
    (nodeBytes nd).length = 97 := by
  simp [nodeBytes, h1, h2, h3]

theorem nodeBytes_flatten_length (nodes : List NYNode)
    (h : ∀ nd ∈ nodes, (nodeBytes nd).length = 97) :
    ((nodes.map nodeBytes).flatten).length = 97 * nodes.length := by
  induction nodes with
  | nil => simp
  | cons nd rest ih =>
    simp only [List.map_cons, List.flatten_cons, List.length_append, List.length_cons]
    rw [h nd (List.mem_cons_self nd rest),
      ih (fun x hx => h x (List.mem_cons_of_mem nd hx))]
    ring

theorem loadNode_nodeBytes (nd : NYNode) (rest : List Nat)
    (h1 : nd.privSeed.length = 32) (h2 : nd.pubSeed.length = 32)
    (h3 : nd.txid.length = 32) (h4 : nd.confirms < 256) :
    loadNode (nodeBytes nd ++ rest) = Except.ok nd := by
  have hlen : (nodeBytes nd ++ rest).length = 97 + rest.length := by
    rw [List.length_append, nodeBytes_length nd h1 h2 h3]
  have hb : nodeBytes nd ++ rest
      = nd.privSeed ++ (nd.pubSeed ++ (nd.txid ++ ([nd.confirms % 256] ++ rest))) := by
    simp [nodeBytes]
  unfold loadNode
  rw [if_neg (by omega)]
  have e1 : (nodeBytes nd ++ rest).take 32 = nd.privSeed := by
    rw [hb]; exact List.take_left' h1
  have edrop32 : (nodeBytes nd ++ rest).drop 32
      = nd.pubSeed ++ (nd.txid ++ ([nd.confirms % 256] ++ rest)) := by
    rw [hb]; exact List.drop_left' h1
  have e2 : ((nodeBytes nd ++ rest).drop 32).take 32 = nd.pubSeed := by
    rw [edrop32]; exact List.take_left' h2
  have edrop64 : (nodeBytes nd ++ rest).drop 64
      = nd.txid ++ ([nd.confirms % 256] ++ rest) := by
    have : (64 : Nat) = 32 + 32 := rfl
    rw [this, ← List.drop_drop, edrop32]
    exact List.drop_left' h2
  have e3 : ((nodeBytes nd ++ rest).drop 64).take 32 = nd.txid := by
    rw [edrop64]; exact List.take_left' h3
  have e4 : (nodeBytes nd ++ rest).getD 96 0 = nd.confirms := by
    rw [hb]
    rw [List.getD_append_right _ _ _ _ (by omega)]
    rw [List.getD_append_right _ _ _ _ (by omega)]
    rw [List.getD_append_right _ _ _ _ (by omega)]
    rw [h1, h2, h3]
    show List.getD ([nd.confirms % 256] ++ rest) 0 0 = nd.confirms
    simp [Nat.mod_eq_of_lt h4]
  rw [e1, e2, e3, e4]

theorem loadNodes_flatten (nodes : List NYNode)
    (h : ∀ nd ∈ nodes, nd.privSeed.length = 32 ∧ nd.pubSeed.length = 32
      ∧ nd.txid.length = 32 ∧ nd.confirms < 256) :
    loadNodes ((nodes.map nodeBytes).flatten) = Except.ok nodes := by
  induction nodes with
  | nil => simp [loadNodes]
  | cons nd rest ih =>
    obtain ⟨h1, h2, h3, h4⟩ := h nd (List.mem_cons_self nd rest)
    have hnb : (nodeBytes nd).length = 97 := nodeBytes_length nd h1 h2 h3
    have hflat : ((nd :: rest).map nodeBytes).flatten
        = nodeBytes nd ++ ((rest.map nodeBytes).flatten) := by
      simp
    rw [hflat]
    rw [loadNodes]
    rw [dif_neg (by
      rw [List.length_append, hnb]
      omega)]
    rw [loadNode_nodeBytes nd _ h1 h2 h3 h4]
    rw [List.drop_left' hnb]
    rw [ih (fun x hx => h x (List.mem_cons_of_mem nd hx))]

/-- Claim C9: Bytes() is the ots byte, the root seeds and the 97-byte node
records in pool order, of total length 65 + 97 n, and Load inverts it
field by field, so Load(Bytes(t)) equals t and re-serializing yields the
same bytes. -/
theorem tree_roundtrip (t : NYTree) (hw : wfTree t) :
    (treeBytes t).length = 65 + 97 * t.nodes.length
    ∧ treeLoad (treeBytes t) = Except.ok t := by
  obtain ⟨hrs, hrps, hnodes⟩ := hw
  have hnb : ∀ nd ∈ t.nodes, (nodeBytes nd).length = 97 := fun nd hnd =>
    nodeBytes_length nd (hnodes nd hnd).1 (hnodes nd hnd).2.1 (hnodes nd hnd).2.2.1
  have hflatlen := nodeBytes_flatten_length t.nodes hnb
  have hhd : treeBytes t = (if t.ots then [1] else [0])
      ++ (t.rootSeed ++ (t.rootPubSeed ++ ((t.nodes.map nodeBytes).flatten))) := by
    simp [treeBytes]
  have hhdlen : (if t.ots then ([1] : List Nat) else [0]).length = 1 := by
    cases t.ots <;> rfl
  have hlen : (treeBytes t).length = 65 + 97 * t.nodes.length := by
    rw [hhd]
    simp only [List.length_append, hhdlen, hrs, hrps, hflatlen]
    omega
  refine ⟨hlen, ?_⟩
  have hdrop1 : (treeBytes t).drop 1
      = t.rootSeed ++ (t.rootPubSeed ++ ((t.nodes.map nodeBytes).flatten)) := by
    rw [hhd]; exact List.drop_left' hhdlen
  have hdrop33 : (treeBytes t).drop 33
      = t.rootPubSeed ++ ((t.nodes.map nodeBytes).flatten) := by
    have h33 : (33 : Nat) = 1 + 32 := rfl
    rw [h33, ← List.drop_drop, hdrop1]
    exact List.drop_left' hrs
  have hdrop65 : (treeBytes t).drop 65 = (t.nodes.map nodeBytes).flatten := by
    have h65 : (65 : Nat) = 33 + 32 := rfl
    rw [h65, ← List.drop_drop, hdrop33]
    exact List.drop_left' hrps
  unfold treeLoad
  rw [if_neg (by omega)]
  rw [hdrop65, loadNodes_flatten t.nodes hnodes]
  show Except.ok
      ({ nodes := t.nodes, rootSeed := ((treeBytes t).drop 1).take 32,
         rootPubSeed := ((treeBytes t).drop 33).take 32,
         ots := (treeBytes t).getD 0 0 == 1 } : NYTree) = Except.ok t
  have e1 : ((treeBytes t).drop 1).take 32 = t.rootSeed := by
    rw [hdrop1]; exact List.take_left' hrs
  have e2 : ((treeBytes t).drop 33).take 32 = t.rootPubSeed := by
    rw [hdrop33]; exact List.take_left' hrps
  have e3 : ((treeBytes t).getD 0 0 == 1) = t.ots := by
    rw [hhd]
    cases t.ots <;> rfl
  rw [e1, e2, e3]

/-- Witness for claim C9 on a concrete fresh tree. -/
theorem tree_roundtrip_witness :
    (treeBytes (treeNew 1 (List.replicate 32 3) (List.replicate 32 4) false)).length
        = 65 + 97 * (treeNew 1 (List.replicate 32 3) (List.replicate 32 4) false).nodes.length
    ∧ treeLoad (treeBytes (treeNew 1 (List.replicate 32 3) (List.replicate 32 4) false))
        = Except.ok (treeNew 1 (List.replicate 32 3) (List.replicate 32 4) false) :=
  tree_roundtrip (treeNew 1 (List.replicate 32 3) (List.replicate 32 4) false)
    (by unfold wfTree; decide)
